import Mathlib

/-!
Verification development for the fused multi-head attention forward kernel
(`AttentionKernel` in
`paddle/phi/kernels/fusion/cutlass/fused_multi_head_attention/kernel_forward.h`).

The kernel computes `softmax(scale * Q * K^T + mask) * V` with a tiled,
streaming (online) softmax: keys are processed in tiles of `kKeysPerBlock`
columns, and per-query-row running statistics `mi` (running maximum),
`m_prime` (previous maximum, then rescale factor) and `s_prime` (running,
rescaled sum of exponentials) are maintained across tiles
(`iterative_softmax`, kernel_forward.h lines 931-1047).

Embedding conventions:
* Machine floats are embedded as real numbers (`ℝ`); the claims are about
  the real-arithmetic behaviour of the code, with floating point rounding
  abstracted away.
* The float value `-infinity` — used for the initial `m_prime`/`mi` state
  and for causally masked scores — is embedded as `⊥` in `WithBot ℝ` where
  it is carried as a value (the `mi` state), and as *exclusion from the
  kept column set* where the code only ever consumes it through
  `expf`/`max` (a score of `-infinity` satisfies `exp(-inf - m) = 0` and
  `max(x, -inf) = x`, i.e. it behaves exactly like a column that is
  excluded from the row maximum and contributes `0` to the row sum).
* One query row is modelled at a time: the kernel is data parallel over
  the `kQueriesPerBlock` rows of a block (the per-row states `mi[r]`,
  `m_prime[r]`, `s_prime[r]` and the output row `accum_o[r]` of distinct
  rows never interact), so each row's computation is a function of the
  row index `r` alone.
-/

namespace FMHA

/-- `ceil_div(a, b) * b` with `ceil_div(a, b) = (a + b - 1) / b` as in
`gemm_kernel_utils.h`; used for the log-sum-exp row padding
(`lse_dim = ceil_div(num_queries, kAlignLSE) * kAlignLSE`). -/
def alignUp (n a : ℕ) : ℕ := ((n + a - 1) / a) * a

/-- `kAlignLSE = 32` (kernel_forward.h line 98): block size of the
log-sum-exp padding. -/
def kAlignLSE : ℕ := 32

/-- Compile-time template parameters of `AttentionKernel`
(kernel_forward.h lines 71-84).  `kQueriesPerBlock` and `kKeysPerBlock`
are asserted to be multiples of 32 at lines 106-107; theorems take the
(weaker) hypotheses they actually need. -/
structure Config where
  kQueriesPerBlock : ℕ
  kKeysPerBlock : ℕ
  kAddMask : Bool
  kMaskBroadcastRow : Bool

/-- Runtime parameters (`AttentionKernel::Params`, kernel_forward.h lines
117-164) for one batch/head: buffers are embedded as total functions from
indices to reals (pointer/stride addressing abstracted), `logsumexp`
models `logsumexp_ptr != nullptr`.  The field `mask_broadcast_row`
(line 142) is declared in the source `Params` struct; the device code
only ever consults the compile-time `kMaskBroadcastRow`. -/
structure Params where
  query : ℕ → ℕ → ℝ
  key : ℕ → ℕ → ℝ
  value : ℕ → ℕ → ℝ
  mask : ℕ → ℕ → ℝ
  logsumexp : Bool
  scale : ℝ
  head_dim : ℕ
  head_dim_value : ℕ
  num_queries : ℕ
  num_keys : ℕ
  causal : Bool
  mask_broadcast_row : Bool

/-- The causal clamp in `Params::advance_to_block` (lines 240-243):
`num_keys = min(query_start + kQueriesPerBlock, num_keys)` when `causal`
is set. -/
def advanceNumKeys (kQueriesPerBlock : ℕ) (causal : Bool) (qs numKeys : ℕ) : ℕ :=
  if causal then min (qs + kQueriesPerBlock) numKeys else numKeys

/-- Raw stage-1 score: the `Q * K^T` dot product of query row `q` with key
row `j` (MM0, accumulated in `accum_t = float`). -/
def rawScore (p : Params) (q j : ℕ) : ℝ :=
  ∑ d ∈ Finset.range p.head_dim, p.query q d * p.key j d

/-- The per-row mask actually applied to row `r` of the block starting at
query `qs`: the mask tile is loaded from row `query_start` of the mask
(lines 662-668), and under `kMaskBroadcastRow` only that single row is
loaded and read back at smem row 0 for every query row (lines 657 and
686-688); otherwise row `r` reads smem row `r` = global row `qs + r`. -/
def maskRowFn (kMaskBroadcastRow : Bool) (gmask : ℕ → ℕ → ℝ) (qs r : ℕ) : ℕ → ℝ :=
  fun c => if kMaskBroadcastRow then gmask qs c else gmask (qs + r) c

/-- Post-mask-stage score of key column `j` (absolute index) for one query
row: when `kAddMask` the whole score fragment is first multiplied by
`scale` (lines 652-655) and the mask is then added element-wise
(lines 677-694); otherwise the raw score is left untouched (the scale is
applied later, inside `iterative_softmax`).  The source guards the mask
add with `accum_m < problem_size_0_m && accum_n < problem_size_0_n`; out
of range columns are excluded from max and sum downstream, so applying
the mask at every `j` is observationally identical. -/
def stagedScore (kAddMask : Bool) (scale : ℝ) (raw maskRow : ℕ → ℝ) (j : ℕ) : ℝ :=
  if kAddMask then scale * raw j + maskRow j else raw j

/-- The `scaling` argument passed to `iterative_softmax` (line 739):
`kAddMask ? 1.0f : p.scale`. -/
def softmaxScale (kAddMask : Bool) (scale : ℝ) : ℝ :=
  if kAddMask then 1 else scale

/-- `problem_size_0_n = min(kKeysPerBlock, num_keys - iter_key_start)`
(lines 566-567) for key tile `t` (so `iter_key_start = t * kB`). -/
def problemSizeN (kB n t : ℕ) : ℕ := min kB (n - t * kB)

/-- Kept (non-excluded) local columns of key tile `t` for one query row:
a column participates in the row maximum and row sum iff it is in range
(`kFullColumns || accum_n < max_col`, lines 981 and 1018) and was not
overwritten with `-infinity` by the causal mask.  The causal overwrite
(lines 697-714) happens only when `num_keys - iter_key_start <=
kKeysPerBlock` (the last reachable tile) and hits every element with
`accum_n > last_col`, i.e. `iter_key_start + accum_n > query_start +
accum_m`; for this row `qs + r`.  A `-infinity` score contributes the
exponential `0` and never changes the maximum, which is exactly
exclusion from this set. -/
def keptCols (causal : Bool) (kB qs r n t : ℕ) : Finset ℕ :=
  (Finset.range (problemSizeN kB n t)).filter
    (fun j => ¬(causal = true ∧ n - t * kB ≤ kB ∧ qs + r < t * kB + j))

/-- Per-row streaming softmax state (`ScalingCoefs`, lines 429-435, plus
the output fragment `accum_o`): `mi` is the running row maximum (float,
initialised to `-infinity` — hence `WithBot ℝ`), `s_prime` the running
rescaled sum of exponentials, `accum_o` the output-row accumulator
(`kKeepOutputInRF` mode).  `m_prime` needs no field: it is overwritten
with `mi` at the start of every non-first tile and is otherwise the
initial `-infinity`. -/
@[ext]
structure SState where
  mi : WithBot ℝ
  s_prime : ℝ
  accum_o : ℕ → ℝ

/-- State at kernel entry (lines 529-536): `s_prime = 0`,
`mi = m_prime = -infinity`, cleared output accumulator. -/
def initState : SState := ⟨⊥, 0, fun _ => 0⟩

/-- The tile's row maximum, already multiplied by `scaling`:
`atomicMaxFloat(&mi[accum_m], max * scaling)` (line 988) where `max` is
the running `fast_max` over the in-range columns (lines 973-989).  When
every kept column is causally masked (or the tile is empty) the float
`max` is `-infinity` and the atomic max leaves `mi` unchanged; this is
the `⊥` branch. -/
noncomputable def tileMaxScaled (scaling : ℝ) (val : ℕ → ℝ) (kept : Finset ℕ)
    (kB t : ℕ) : WithBot ℝ :=
  if h : kept.Nonempty then
    ((scaling * kept.sup' h (fun j => val (t * kB + j)) : ℝ) : WithBot ℝ)
  else ⊥

/-- Final per-column softmax weight of the tile:
`frag[idx] = (kFullColumns || accum_n < max_col) ? exp2f(frag[idx] -
mi_row) : 0` (lines 1017-1021) after `frag` was multiplied by
`scaling * kLog2e` (line 991), i.e. `exp(scaling * score - mi)` on kept
columns and `0` elsewhere (causally masked columns carry score
`-infinity`, so their exponential is also `0`). -/
noncomputable def tileWeight (scaling : ℝ) (val : ℕ → ℝ) (kept : Finset ℕ)
    (kB t : ℕ) (miR : ℝ) (j : ℕ) : ℝ :=
  if j ∈ kept then Real.exp (scaling * val (t * kB + j) - miR) else 0

/-- One invocation of `iterative_softmax` (lines 931-1047) together with
the `attn @ V` accumulation of MM1 (line 793), for one query row:

* `m_prime <- mi` on non-first tiles (lines 962-967);
* `mi <- max(mi, scaling * tile_max)` via `atomicMaxFloat` (line 988);
* `m_prime_exp = exp(m_prime - mi)` — on the first tile `m_prime` is the
  initial `-infinity` and the factor is `0` against the (finite) new
  `mi` (lines 996-1000);
* `s_prime <- s_prime * m_prime_exp + sum_j exp(scaling * score_j - mi)`
  (lines 999 and 1023-1045);
* when `kKeepOutputInRF && !kIsFirst`, the register output fragment is
  rescaled by `m_prime_exp` (lines 1002-1010) — the first tile is
  special-cased by skipping the multiply — and MM1 accumulates
  `sum_j weight_j * V[t*kB + j]` on top (line 793). -/
noncomputable def iterativeSoftmaxStep (kKeepOutputInRF isFirst : Bool) (scaling : ℝ)
    (val : ℕ → ℝ) (V : ℕ → ℕ → ℝ) (kept : Finset ℕ) (kB t : ℕ) (st : SState) :
    SState :=
  let mi2 : WithBot ℝ := max st.mi (tileMaxScaled scaling val kept kB t)
  let miR : ℝ := mi2.unbot' 0
  let mexp : ℝ :=
    if isFirst then 0
    else WithBot.recBotCoe 0 (fun a => Real.exp (a - miR)) st.mi
  { mi := mi2
    s_prime := st.s_prime * mexp
      + ∑ j ∈ Finset.range kB, tileWeight scaling val kept kB t miR j
    accum_o := fun k =>
      (if kKeepOutputInRF && !isFirst then st.accum_o k * mexp else st.accum_o k)
        + ∑ j ∈ Finset.range kB,
            tileWeight scaling val kept kB t miR j * V (t * kB + j) k }

/-- Number of iterations of the key-tile loop
`for (iter_key_start = 0; iter_key_start < num_keys; iter_key_start += kKeysPerBlock)`
(lines 562-563). -/
def numTiles (kB n : ℕ) : ℕ := (n + kB - 1) / kB

/-- State of one query row after the first `T` key tiles. -/
noncomputable def stateAfter (kAddMask causal : Bool) (scale : ℝ)
    (raw maskRow : ℕ → ℝ) (V : ℕ → ℕ → ℝ) (kB qs r n : ℕ) (T : ℕ) : SState :=
  (List.range T).foldl
    (fun st t =>
      iterativeSoftmaxStep true (t == 0) (softmaxScale kAddMask scale)
        (stagedScore kAddMask scale raw maskRow) V
        (keptCols causal kB qs r n t) kB t st)
    initState

/-- State of one query row after the whole key-tile loop. -/
noncomputable def fusedRowState (kAddMask causal : Bool) (scale : ℝ)
    (raw maskRow : ℕ → ℝ) (V : ℕ → ℕ → ℝ) (kB qs r n : ℕ) : SState :=
  stateAfter kAddMask causal scale raw maskRow V kB qs r n (numTiles kB n)

/-- Modelled from the spec: the epilogue for `kKeepOutputInRF` mode.  The
`MemoryEfficientAttentionNormalize` output op lives in
`epilogue/epilogue_rescale_output.h`, which is not part of this
repository snapshot; spec section 4.6: "a single epilogue pass at the
very end divides every output element by the final `s_prime` and writes
to the output buffer". -/
noncomputable def fusedRowOut (kAddMask causal : Bool) (scale : ℝ)
    (raw maskRow : ℕ → ℝ) (V : ℕ → ℕ → ℝ) (kB qs r n : ℕ) (k : ℕ) : ℝ :=
  (fusedRowState kAddMask causal scale raw maskRow V kB qs r n).accum_o k
    / (fusedRowState kAddMask causal scale raw maskRow V kB qs r n).s_prime

/-- Keys visible to query `qs + r` in the reference computation: all keys
below `numKeys`, restricted to positions `≤ qs + r` when `causal`. -/
def refKept (causal : Bool) (numKeys qs r : ℕ) : Finset ℕ :=
  (Finset.range numKeys).filter (fun j => causal = true → j ≤ qs + r)

/-- Modelled from the spec: the logit entering the reference softmax,
`scale * (Q_i . K_j) + mask_ij` with the mask in final-logit units
(spec sections 4.3 and 8), and `scale * (Q_i . K_j)` without a mask. -/
def refLogit (kAddMask : Bool) (scale : ℝ) (raw maskRow : ℕ → ℝ) (j : ℕ) : ℝ :=
  if kAddMask then scale * raw j + maskRow j else scale * raw j

/-- Modelled from the spec: the reference (unfused, full-materialisation)
attention output `sum_j softmax(L)_j * V_j` over the visible keys
(spec section 8, first testable property). -/
noncomputable def refOut (causal : Bool) (numKeys qs r : ℕ) (L : ℕ → ℝ)
    (V : ℕ → ℕ → ℝ) (k : ℕ) : ℝ :=
  (∑ j ∈ refKept causal numKeys qs r, Real.exp (L j) * V j k)
    / (∑ j ∈ refKept causal numKeys qs r, Real.exp (L j))

/-- Streaming state of row `r` of block `blockx` of the launched kernel
(`attention_kernel` after `advance_to_block`):
`query_start = blockIdx.x * kQueriesPerBlock` (line 526), keys clamped by
`advance_to_block` when causal. -/
noncomputable def kernelRowState (cfg : Config) (p : Params) (blockx r : ℕ) : SState :=
  fusedRowState cfg.kAddMask p.causal p.scale
    (rawScore p (blockx * cfg.kQueriesPerBlock + r))
    (maskRowFn cfg.kMaskBroadcastRow p.mask (blockx * cfg.kQueriesPerBlock) r)
    p.value cfg.kKeysPerBlock (blockx * cfg.kQueriesPerBlock) r
    (advanceNumKeys cfg.kQueriesPerBlock p.causal
      (blockx * cfg.kQueriesPerBlock) p.num_keys)

/-- Output element `k` of query row `blockx * kQueriesPerBlock + r`. -/
noncomputable def kernelOutput (cfg : Config) (p : Params) (blockx r k : ℕ) : ℝ :=
  (kernelRowState cfg p blockx r).accum_o k / (kernelRowState cfg p blockx r).s_prime

/-- The reference value for output row `blockx * kQueriesPerBlock + r`,
element `k`, assembled from the spec-modelled reference pieces with the
mask row the kernel actually applies. -/
noncomputable def referenceRow (cfg : Config) (p : Params) (blockx r k : ℕ) : ℝ :=
  refOut p.causal p.num_keys (blockx * cfg.kQueriesPerBlock) r
    (refLogit cfg.kAddMask p.scale
      (rawScore p (blockx * cfg.kQueriesPerBlock + r))
      (maskRowFn cfg.kMaskBroadcastRow p.mask (blockx * cfg.kQueriesPerBlock) r))
    p.value k

/-- Value of `mi[r]` as the float read at line 918 (`accum_t(mi[...])`)
does: `mi` is `-infinity` only in the degenerate `num_keys = 0` case; the
default `0` of `unbot'` is immaterial in every theorem that uses it. -/
def miFloat (m : WithBot ℝ) : ℝ := m.unbot' 0

/-- The log-sum-exp value written by one block for one of its local rows
(lines 910-924): only threads `< kQueriesPerBlock` write; rows below the
block's remaining query count (`num_queries` was decremented by
`query_start` in `advance_to_block`, line 239) get `mi + log(s_prime)`,
rows beyond it but below `lse_dim = ceil_div(num_queries, kAlignLSE) *
kAlignLSE` (line 915) get `+infinity` (`⊤`), everything else is left
unwritten (`none`). -/
noncomputable def kernelLSE (cfg : Config) (p : Params) (blockx r : ℕ) :
    Option (WithTop ℝ) :=
  if p.logsumexp = false then none
  else if r < cfg.kQueriesPerBlock then
    (if r < p.num_queries - blockx * cfg.kQueriesPerBlock then
      some ((miFloat (kernelRowState cfg p blockx r).mi
        + Real.log (kernelRowState cfg p blockx r).s_prime : ℝ) : WithTop ℝ)
    else if r < alignUp (p.num_queries - blockx * cfg.kQueriesPerBlock) kAlignLSE then
      some ⊤
    else none)
  else none

/-- Grid extent in the query-tile dimension:
`ceil_div(num_queries, kQueriesPerBlock)` (`getBlocksGrid`, line 263). -/
def gridX (cfg : Config) (p : Params) : ℕ :=
  (p.num_queries + cfg.kQueriesPerBlock - 1) / cfg.kQueriesPerBlock

/-- The log-sum-exp buffer entry for global query row `q` (one batch and
head): block `q / kQueriesPerBlock` owns local row `q % kQueriesPerBlock`
(the per-block pointer is advanced by `query_start`, lines 233-237);
blocks outside the launch grid write nothing. -/
noncomputable def globalLSE (cfg : Config) (p : Params) (q : ℕ) : Option (WithTop ℝ) :=
  if q / cfg.kQueriesPerBlock < gridX cfg p then
    kernelLSE cfg p (q / cfg.kQueriesPerBlock) (q % cfg.kQueriesPerBlock)
  else none

/-- Host-side pointer/stride parameters consumed by `check_supported`
(lines 486-513): pointers are byte addresses (`0` models `nullptr`),
strides are the `int32_t`/`int64_t` stride fields. -/
structure CheckParams where
  query_ptr : ℕ
  key_ptr : ℕ
  value_ptr : ℕ
  mask_ptr : ℕ
  q_strideM : ℤ
  k_strideM : ℤ
  v_strideM : ℤ
  mask_strideM : ℤ
  q_strideH : ℤ
  k_strideH : ℤ
  v_strideH : ℤ
  mask_strideH : ℤ
  mask_strideB : ℤ

/-- `kAlignmentV = 1` (line 425). -/
def kAlignmentV : ℕ := 1

/-- `kAlignmentM = kMaskIsAligned ? kAlignmentQ : 1` (line 426). -/
def kAlignmentM (alignQ : ℕ) (maskIsAligned : Bool) : ℕ :=
  if maskIsAligned then alignQ else 1

/-- Modelled from the spec: `CHECK_ALIGNED_PTR(p, a)` from the missing
`debug_utils.h` header fails (returns `false` from the enclosing
function) iff the pointer value is not a multiple of the alignment; a
null pointer trivially passes.  Spec section 7: "misaligned buffer
pointers or strides, detected once before execution begins and reported
synchronously to the caller with no partial work attempted". -/
def checkAlignedPtr (ptr a : ℕ) : Bool := ptr % a == 0

/-- `AttentionKernel::check_supported` (lines 486-513): the sequence of
`CHECK_ALIGNED_PTR` / `XFORMERS_CHECK(stride % alignment == 0)` guards,
each of which early-returns `false` (modelled as a conjunction);
`kAlignmentQ`/`kAlignmentK` come from the cutlass default gemm
configuration and are kept abstract. -/
def check_supported (alignQ alignK : ℕ) (maskIsAligned : Bool) (p : CheckParams) :
    Bool :=
  checkAlignedPtr p.query_ptr alignQ &&
  checkAlignedPtr p.key_ptr alignK &&
  checkAlignedPtr p.value_ptr kAlignmentV &&
  checkAlignedPtr p.mask_ptr (kAlignmentM alignQ maskIsAligned) &&
  (if p.mask_ptr ≠ 0 then
      checkAlignedPtr p.mask_ptr (kAlignmentM alignQ maskIsAligned) &&
      (p.mask_strideB % (kAlignmentM alignQ maskIsAligned : ℤ) == 0) &&
      (p.mask_strideH % (kAlignmentM alignQ maskIsAligned : ℤ) == 0) &&
      (p.mask_strideM % (kAlignmentM alignQ maskIsAligned : ℤ) == 0)
    else true) &&
  (p.q_strideM % (alignQ : ℤ) == 0) &&
  (p.k_strideM % (alignK : ℤ) == 0) &&
  (p.v_strideM % (kAlignmentV : ℤ) == 0) &&
  (p.q_strideH % (alignQ : ℤ) == 0) &&
  (p.k_strideH % (alignK : ℤ) == 0) &&
  (p.v_strideH % (kAlignmentV : ℤ) == 0)

/-! ### Basic structural lemmas about the key-tile loop -/

theorem stateAfter_succ (kAddMask causal : Bool) (scale : ℝ) (raw maskRow : ℕ → ℝ)
    (V : ℕ → ℕ → ℝ) (kB qs r n T : ℕ) :
    stateAfter kAddMask causal scale raw maskRow V kB qs r n (T + 1)
      = iterativeSoftmaxStep true (T == 0) (softmaxScale kAddMask scale)
          (stagedScore kAddMask scale raw maskRow) V
          (keptCols causal kB qs r n T) kB T
          (stateAfter kAddMask causal scale raw maskRow V kB qs r n T) := by
  unfold stateAfter
  rw [List.range_succ, List.foldl_append]
  rfl

theorem keptCols_subset (causal : Bool) (kB qs r n t : ℕ) :
    keptCols causal kB qs r n t ⊆ Finset.range kB := by
  intro j hj
  simp only [keptCols, problemSizeN, Finset.mem_filter, Finset.mem_range] at hj
  simp only [Finset.mem_range]
  omega

/-- Characterisation of the kept columns of tile `t` under the tiling
safety condition `hsafe`: every non-last tile lies entirely at or before
the query-block start, so the causal restriction of the last tile is the
only one needed. -/
theorem mem_keptCols (causal : Bool) (kB qs r n t j : ℕ)
    (hsafe : causal = true → ∀ u, u * kB + kB < n → u * kB + kB ≤ qs) :
    j ∈ keptCols causal kB qs r n t ↔
      j < kB ∧ t * kB + j < n ∧ (causal = true → t * kB + j ≤ qs + r) := by
  simp only [keptCols, problemSizeN, Finset.mem_filter, Finset.mem_range, lt_min_iff]
  constructor
  · rintro ⟨⟨hjk, hjn⟩, hmask⟩
    refine ⟨hjk, by omega, ?_⟩
    intro hc
    by_cases hl : n - t * kB ≤ kB
    · by_contra hgt
      exact hmask ⟨hc, hl, by omega⟩
    · have := hsafe hc t (by omega)
      omega
  · rintro ⟨hjk, hn, hcaus⟩
    refine ⟨⟨hjk, by omega⟩, ?_⟩
    rintro ⟨hc, hl, hgt⟩
    have := hcaus hc
    omega

/-- Set of key positions already consumed after `T` tiles, as a set of
absolute key indices. -/
def processedSet (causal : Bool) (kB qs r n T : ℕ) : Finset ℕ :=
  (Finset.range (min (T * kB) n)).filter (fun j => causal = true → j ≤ qs + r)

theorem processedSet_zero (causal : Bool) (kB qs r n : ℕ) :
    processedSet causal kB qs r n 0 = ∅ := by
  simp [processedSet]

theorem processedSet_succ (causal : Bool) (kB qs r n T : ℕ)
    (hsafe : causal = true → ∀ u, u * kB + kB < n → u * kB + kB ≤ qs) :
    processedSet causal kB qs r n (T + 1)
      = processedSet causal kB qs r n T
          ∪ (keptCols causal kB qs r n T).image (fun j => T * kB + j) := by
  have hmul : (T + 1) * kB = T * kB + kB := by ring
  ext g
  simp only [processedSet, Finset.mem_union, Finset.mem_image, Finset.mem_filter,
    Finset.mem_range, lt_min_iff, hmul, mem_keptCols causal kB qs r n T _ hsafe]
  constructor
  · rintro ⟨⟨hg1, hg2⟩, hpred⟩
    by_cases hlt : g < T * kB
    · exact Or.inl ⟨⟨hlt, hg2⟩, hpred⟩
    · refine Or.inr ⟨g - T * kB, ⟨by omega, by omega,
        fun hc => by have := hpred hc; omega⟩, by omega⟩
  · rintro (⟨⟨hg1, hg2⟩, hpred⟩ | ⟨j, ⟨hjk, hjn, hc⟩, rfl⟩)
    · exact ⟨⟨by omega, hg2⟩, hpred⟩
    · exact ⟨⟨by omega, hjn⟩, hc⟩

theorem processedSet_disjoint (causal : Bool) (kB qs r n T : ℕ) :
    Disjoint (processedSet causal kB qs r n T)
      ((keptCols causal kB qs r n T).image (fun j => T * kB + j)) := by
  rw [Finset.disjoint_left]
  rintro g hg hmem
  simp only [processedSet, Finset.mem_filter, Finset.mem_range, lt_min_iff] at hg
  simp only [Finset.mem_image] at hmem
  obtain ⟨j, _, rfl⟩ := hmem
  omega

theorem sum_tileWeight_mul (scaling : ℝ) (val : ℕ → ℝ) (kept : Finset ℕ)
    (kB t : ℕ) (miR : ℝ) (hsub : kept ⊆ Finset.range kB) (f : ℕ → ℝ) :
    ∑ j ∈ Finset.range kB, tileWeight scaling val kept kB t miR j * f j
      = ∑ j ∈ kept, Real.exp (scaling * val (t * kB + j) - miR) * f j := by
  unfold tileWeight
  rw [Finset.sum_congr rfl fun j _ => by rw [ite_mul, zero_mul]]
  rw [Finset.sum_ite_mem, Finset.inter_eq_right.mpr hsub]

theorem sum_tileWeight (scaling : ℝ) (val : ℕ → ℝ) (kept : Finset ℕ)
    (kB t : ℕ) (miR : ℝ) (hsub : kept ⊆ Finset.range kB) :
    ∑ j ∈ Finset.range kB, tileWeight scaling val kept kB t miR j
      = ∑ j ∈ kept, Real.exp (scaling * val (t * kB + j) - miR) := by
  have h := sum_tileWeight_mul scaling val kept kB t miR hsub fun _ => 1
  simpa using h

theorem tileMaxScaled_empty (scaling : ℝ) (val : ℕ → ℝ) (kB t : ℕ) :
    tileMaxScaled scaling val ∅ kB t = ⊥ := by
  simp [tileMaxScaled]

theorem tileMaxScaled_nonempty (scaling : ℝ) (val : ℕ → ℝ) (kept : Finset ℕ)
    (kB t : ℕ) (h : kept.Nonempty) :
    tileMaxScaled scaling val kept kB t
      = ((scaling * kept.sup' h (fun j => val (t * kB + j)) : ℝ) : WithBot ℝ) :=
  dif_pos h

theorem iterativeSoftmaxStep_mi (kRF isFirst : Bool) (scaling : ℝ) (val : ℕ → ℝ)
    (V : ℕ → ℕ → ℝ) (kept : Finset ℕ) (kB t : ℕ) (st : SState) :
    (iterativeSoftmaxStep kRF isFirst scaling val V kept kB t st).mi
      = max st.mi (tileMaxScaled scaling val kept kB t) := rfl

theorem iterativeSoftmaxStep_s (kRF isFirst : Bool) (scaling : ℝ) (val : ℕ → ℝ)
    (V : ℕ → ℕ → ℝ) (kept : Finset ℕ) (kB t : ℕ) (st : SState) :
    (iterativeSoftmaxStep kRF isFirst scaling val V kept kB t st).s_prime
      = st.s_prime * (if isFirst then 0
            else WithBot.recBotCoe 0
              (fun a => Real.exp
                (a - (max st.mi (tileMaxScaled scaling val kept kB t)).unbot' 0)) st.mi)
        + ∑ j ∈ Finset.range kB,
            tileWeight scaling val kept kB t
              ((max st.mi (tileMaxScaled scaling val kept kB t)).unbot' 0) j := rfl

theorem iterativeSoftmaxStep_o (kRF isFirst : Bool) (scaling : ℝ) (val : ℕ → ℝ)
    (V : ℕ → ℕ → ℝ) (kept : Finset ℕ) (kB t : ℕ) (st : SState) (k : ℕ) :
    (iterativeSoftmaxStep kRF isFirst scaling val V kept kB t st).accum_o k
      = (if kRF && !isFirst then
            st.accum_o k * (if isFirst then 0
              else WithBot.recBotCoe 0
                (fun a => Real.exp
                  (a - (max st.mi (tileMaxScaled scaling val kept kB t)).unbot' 0)) st.mi)
          else st.accum_o k)
        + ∑ j ∈ Finset.range kB,
            tileWeight scaling val kept kB t
              ((max st.mi (tileMaxScaled scaling val kept kB t)).unbot' 0) j
              * V (t * kB + j) k := rfl

/-- Invariant of the streaming softmax: after `T` tiles the state is
either still the initial one (no key kept so far), or there is a real
running maximum `M` such that `s_prime` is the sum of the exponentials of
all processed logits relative to `M` and `accum_o` is the corresponding
exponentially-weighted sum of value rows. -/
theorem stateAfter_spec (kAddMask causal : Bool) (scale : ℝ) (raw maskRow : ℕ → ℝ)
    (V : ℕ → ℕ → ℝ) (kB qs r n : ℕ)
    (hsafe : causal = true → ∀ u, u * kB + kB < n → u * kB + kB ≤ qs) (T : ℕ) :
    ((stateAfter kAddMask causal scale raw maskRow V kB qs r n T).mi = ⊥
       ∧ (stateAfter kAddMask causal scale raw maskRow V kB qs r n T).s_prime = 0
       ∧ (∀ k, (stateAfter kAddMask causal scale raw maskRow V kB qs r n T).accum_o k = 0)
       ∧ processedSet causal kB qs r n T = ∅)
    ∨ (∃ M : ℝ,
        (stateAfter kAddMask causal scale raw maskRow V kB qs r n T).mi = (M : WithBot ℝ)
        ∧ (stateAfter kAddMask causal scale raw maskRow V kB qs r n T).s_prime
            = ∑ j ∈ processedSet causal kB qs r n T,
                Real.exp (softmaxScale kAddMask scale
                  * stagedScore kAddMask scale raw maskRow j - M)
        ∧ ∀ k, (stateAfter kAddMask causal scale raw maskRow V kB qs r n T).accum_o k
            = ∑ j ∈ processedSet causal kB qs r n T,
                Real.exp (softmaxScale kAddMask scale
                  * stagedScore kAddMask scale raw maskRow j - M) * V j k) := by
  set sc := softmaxScale kAddMask scale with hsc
  set vl := stagedScore kAddMask scale raw maskRow with hvl
  induction T with
  | zero =>
    exact Or.inl ⟨rfl, rfl, fun _ => rfl, processedSet_zero causal kB qs r n⟩
  | succ T ih =>
    have hstep := stateAfter_succ kAddMask causal scale raw maskRow V kB qs r n T
    rw [← hsc, ← hvl] at hstep
    set st := stateAfter kAddMask causal scale raw maskRow V kB qs r n T with hst
    set kept := keptCols causal kB qs r n T with hkept
    have hsub : kept ⊆ Finset.range kB := by
      rw [hkept]
      exact keptCols_subset causal kB qs r n T
    have hinj : ∀ x ∈ kept, ∀ y ∈ kept, T * kB + x = T * kB + y → x = y := by
      intro x _ y _ h
      omega
    have hP := processedSet_succ causal kB qs r n T hsafe
    rw [← hkept] at hP
    have hdis := processedSet_disjoint causal kB qs r n T
    rw [← hkept] at hdis
    rcases ih with ⟨hmi, hs, ho, hPe⟩ | ⟨M, hmi, hs, ho⟩
    · rcases Finset.eq_empty_or_nonempty kept with hK | hK
      · left
        have hPsame : processedSet causal kB qs r n (T + 1) = ∅ := by
          rw [hP, hPe, hK]
          simp
        refine ⟨?_, ?_, fun k => ?_, hPsame⟩
        · rw [hstep, iterativeSoftmaxStep_mi, hmi, hK, tileMaxScaled_empty]
          simp
        · rw [hstep, iterativeSoftmaxStep_s, hmi, hs, hK, tileMaxScaled_empty]
          simp [tileWeight]
        · rw [hstep, iterativeSoftmaxStep_o, hmi, ho k, hK, tileMaxScaled_empty]
          simp [tileWeight]
      · set c := sc * kept.sup' hK (fun j => vl (T * kB + j)) with hc
        have hmax : max st.mi (tileMaxScaled sc vl kept kB T)
            = ((c : ℝ) : WithBot ℝ) := by
          rw [hmi, tileMaxScaled_nonempty _ _ _ _ _ hK, ← hc]
          simp
        have hPim : processedSet causal kB qs r n (T + 1)
            = kept.image (fun j => T * kB + j) := by
          rw [hP, hPe, Finset.empty_union]
        right
        refine ⟨c, ?_, ?_, ?_⟩
        · rw [hstep, iterativeSoftmaxStep_mi, hmax]
        · rw [hstep, iterativeSoftmaxStep_s, hmax, hmi, hs,
            sum_tileWeight _ _ _ _ _ _ hsub, hPim, Finset.sum_image hinj]
          simp
        · intro k
          rw [hstep, iterativeSoftmaxStep_o, hmax, hmi, ho k,
            sum_tileWeight_mul _ _ _ _ _ _ hsub, hPim, Finset.sum_image hinj]
          simp
    · have hT0 : (T == 0) = false := by
        rcases Nat.eq_zero_or_pos T with hT | hT
        · subst hT
          have hb : st.mi = ⊥ := rfl
          rw [hb] at hmi
          exact absurd hmi (by simp)
        · simp only [beq_eq_false_iff_ne, ne_eq]
          omega
      rcases Finset.eq_empty_or_nonempty kept with hK | hK
      · right
        have hPsame : processedSet causal kB qs r n (T + 1)
            = processedSet causal kB qs r n T := by
          rw [hP, hK]
          simp
        refine ⟨M, ?_, ?_, ?_⟩
        · rw [hstep, iterativeSoftmaxStep_mi, hmi, hK, tileMaxScaled_empty]
          simp
        · rw [hstep, iterativeSoftmaxStep_s, hmi, hs, hK, tileMaxScaled_empty, hT0,
            hPsame]
          simp [tileWeight]
        · intro k
          rw [hstep, iterativeSoftmaxStep_o, hmi, ho k, hK, tileMaxScaled_empty, hT0,
            hPsame]
          simp [tileWeight]
      · set c := sc * kept.sup' hK (fun j => vl (T * kB + j)) with hc
        have hmax : max st.mi (tileMaxScaled sc vl kept kB T)
            = ((max M c : ℝ) : WithBot ℝ) := by
          rw [hmi, tileMaxScaled_nonempty _ _ _ _ _ hK, ← hc, ← WithBot.coe_max]
        right
        refine ⟨max M c, ?_, ?_, ?_⟩
        · rw [hstep, iterativeSoftmaxStep_mi, hmax]
        · rw [hstep, iterativeSoftmaxStep_s, hmax, hmi, hs, hT0,
            sum_tileWeight _ _ _ _ _ _ hsub, hP,
            Finset.sum_union hdis, Finset.sum_image hinj]
          simp only [Bool.false_eq_true, if_false, WithBot.recBotCoe_coe,
            WithBot.unbot'_coe]
          rw [Finset.sum_mul]
          congr 1
          refine Finset.sum_congr rfl fun j _ => ?_
          rw [← Real.exp_add,
            show sc * vl j - M + (M - max M c) = sc * vl j - max M c by ring]
        · intro k
          rw [hstep, iterativeSoftmaxStep_o, hmax, hmi, ho k, hT0,
            sum_tileWeight_mul _ _ _ _ _ _ hsub, hP,
            Finset.sum_union hdis, Finset.sum_image hinj]
          simp only [Bool.false_eq_true, Bool.not_false, Bool.and_true, if_false,
            if_true, WithBot.recBotCoe_coe, WithBot.unbot'_coe]
          rw [Finset.sum_mul]
          congr 1
          refine Finset.sum_congr rfl fun j _ => ?_
          rw [show Real.exp (sc * vl j - M) * V j k * Real.exp (M - max M c)
              = Real.exp (sc * vl j - M) * Real.exp (M - max M c) * V j k by ring,
            ← Real.exp_add,
            show sc * vl j - M + (M - max M c) = sc * vl j - max M c by ring]

theorem le_numTiles_mul (kB n : ℕ) (hkB : 0 < kB) : n ≤ numTiles kB n * kB := by
  unfold numTiles
  have h := Nat.div_add_mod (n + kB - 1) kB
  have hm : (n + kB - 1) % kB < kB := Nat.mod_lt _ hkB
  rw [mul_comm]
  generalize hq : (n + kB - 1) / kB = q at h
  generalize hrm : (n + kB - 1) % kB = rm at h hm
  omega

theorem processedSet_full (causal : Bool) (kB qs r n : ℕ) (hkB : 0 < kB) :
    processedSet causal kB qs r n (numTiles kB n) = refKept causal n qs r := by
  unfold processedSet refKept
  rw [Nat.min_eq_right (le_numTiles_mul kB n hkB)]

/-- Core equivalence: one query row of the fused streaming kernel equals
the reference softmax-attention row, for any tiling satisfying the
causal-safety side condition `hsafe` (every tile that is not the last
reachable one lies entirely at or before the query-block start). -/
theorem fusedRowOut_eq_refOut (kAddMask causal : Bool) (scale : ℝ)
    (raw maskRow : ℕ → ℝ) (V : ℕ → ℕ → ℝ) (kB qs r n : ℕ) (hkB : 0 < kB)
    (hsafe : causal = true → ∀ u, u * kB + kB < n → u * kB + kB ≤ qs) (k : ℕ) :
    fusedRowOut kAddMask causal scale raw maskRow V kB qs r n k
      = refOut causal n qs r (refLogit kAddMask scale raw maskRow) V k := by
  have hspec := stateAfter_spec kAddMask causal scale raw maskRow V kB qs r n hsafe
    (numTiles kB n)
  have hfull := processedSet_full causal kB qs r n hkB
  have hlog : ∀ j, softmaxScale kAddMask scale
      * stagedScore kAddMask scale raw maskRow j
      = refLogit kAddMask scale raw maskRow j := by
    intro j
    cases kAddMask <;> simp [softmaxScale, stagedScore, refLogit]
  unfold fusedRowOut fusedRowState refOut
  rcases hspec with ⟨hmi, hs, ho, hPe⟩ | ⟨M, hmi, hs, ho⟩
  · rw [hfull] at hPe
    rw [hs, ho k, hPe]
    simp
  · rw [hs, ho k, hfull]
    have hnum : ∑ j ∈ refKept causal n qs r,
        Real.exp (softmaxScale kAddMask scale
          * stagedScore kAddMask scale raw maskRow j - M) * V j k
        = (∑ j ∈ refKept causal n qs r,
            Real.exp (refLogit kAddMask scale raw maskRow j) * V j k)
          * Real.exp (-M) := by
      rw [Finset.sum_mul]
      refine Finset.sum_congr rfl fun j _ => ?_
      rw [sub_eq_add_neg, Real.exp_add, hlog j]
      ring
    have hden : ∑ j ∈ refKept causal n qs r,
        Real.exp (softmaxScale kAddMask scale
          * stagedScore kAddMask scale raw maskRow j - M)
        = (∑ j ∈ refKept causal n qs r,
            Real.exp (refLogit kAddMask scale raw maskRow j)) * Real.exp (-M) := by
      rw [Finset.sum_mul]
      refine Finset.sum_congr rfl fun j _ => ?_
      rw [sub_eq_add_neg, Real.exp_add, hlog j]
    rw [hnum, hden, mul_div_mul_right _ _ (Real.exp_ne_zero (-M))]

/-- The tiling safety condition holds as soon as `kKeysPerBlock` is a
multiple of `kQueriesPerBlock`: the query-block start is a multiple of
`kQueriesPerBlock` and the causally clamped key count is at most
`query_start + kQueriesPerBlock`, so no non-final key tile can cross the
block start. -/
theorem causal_safe_of_dvd (kQ kB qs numKeys : ℕ)
    (hdvd : kQ ∣ kB) (hqs : ∃ m, qs = m * kQ) :
    ∀ u, u * kB + kB < min (qs + kQ) numKeys → u * kB + kB ≤ qs := by
  obtain ⟨cc, rfl⟩ := hdvd
  obtain ⟨m, rfl⟩ := hqs
  intro u hu
  have hle := min_le_left (m * kQ + kQ) numKeys
  have h1 : u * (kQ * cc) + kQ * cc < m * kQ + kQ := by omega
  have e1 : ((u + 1) * cc) * kQ = u * (kQ * cc) + kQ * cc := by ring
  have e2 : (m + 1) * kQ = m * kQ + kQ := by ring
  have h2 : ((u + 1) * cc) * kQ < (m + 1) * kQ := by omega
  have h3 : (u + 1) * cc ≤ m := by
    by_contra hgt
    push_neg at hgt
    have : (m + 1) * kQ ≤ ((u + 1) * cc) * kQ := Nat.mul_le_mul_right kQ hgt
    omega
  have h4 : ((u + 1) * cc) * kQ ≤ m * kQ := Nat.mul_le_mul_right kQ h3
  omega

theorem refKept_clamp (causal : Bool) (kQ qs r numKeys : ℕ) (hr : r < kQ) :
    refKept causal (advanceNumKeys kQ causal qs numKeys) qs r
      = refKept causal numKeys qs r := by
  cases causal with
  | false => simp [advanceNumKeys]
  | true =>
    unfold advanceNumKeys refKept
    simp only [if_true]
    ext j
    simp only [Finset.mem_filter, Finset.mem_range, lt_min_iff]
    constructor
    · rintro ⟨⟨h1, h2⟩, h3⟩
      exact ⟨h2, h3⟩
    · rintro ⟨h1, h3⟩
      have hj := h3 (by trivial)
      exact ⟨⟨by omega, h1⟩, h3⟩

/-- Kernel-level equivalence helper: each output row of the fused kernel
equals the reference unfused softmax-attention row, provided
`kKeysPerBlock` is a multiple of `kQueriesPerBlock` whenever `causal` is
set. -/
theorem kernelOutput_eq_referenceRow (cfg : Config) (p : Params) (blockx r k : ℕ)
    (hkB : 0 < cfg.kKeysPerBlock) (hr : r < cfg.kQueriesPerBlock)
    (hdvd : p.causal = true → cfg.kQueriesPerBlock ∣ cfg.kKeysPerBlock) :
    kernelOutput cfg p blockx r k = referenceRow cfg p blockx r k := by
  have hsafe : p.causal = true →
      ∀ u, u * cfg.kKeysPerBlock + cfg.kKeysPerBlock
          < advanceNumKeys cfg.kQueriesPerBlock p.causal
              (blockx * cfg.kQueriesPerBlock) p.num_keys
        → u * cfg.kKeysPerBlock + cfg.kKeysPerBlock
            ≤ blockx * cfg.kQueriesPerBlock := by
    intro hc u hu
    rw [advanceNumKeys, hc, if_pos rfl] at hu
    exact causal_safe_of_dvd cfg.kQueriesPerBlock cfg.kKeysPerBlock
      (blockx * cfg.kQueriesPerBlock) p.num_keys (hdvd hc) ⟨blockx, rfl⟩ u hu
  have h1 : kernelOutput cfg p blockx r k
      = fusedRowOut cfg.kAddMask p.causal p.scale
          (rawScore p (blockx * cfg.kQueriesPerBlock + r))
          (maskRowFn cfg.kMaskBroadcastRow p.mask (blockx * cfg.kQueriesPerBlock) r)
          p.value cfg.kKeysPerBlock (blockx * cfg.kQueriesPerBlock) r
          (advanceNumKeys cfg.kQueriesPerBlock p.causal
            (blockx * cfg.kQueriesPerBlock) p.num_keys) k := rfl
  rw [h1, fusedRowOut_eq_refOut _ _ _ _ _ _ _ _ _ _ hkB hsafe k]
  unfold referenceRow refOut
  rw [refKept_clamp p.causal cfg.kQueriesPerBlock (blockx * cfg.kQueriesPerBlock) r
    p.num_keys hr]

/-! ### Concrete evaluation of the kernel on the flawed causal tiling

With `kQueriesPerBlock = 128 > kKeysPerBlock = 64`, every static assert
of `AttentionKernel` holds: both are multiples of 32 (kernel_forward.h
lines 106-107) and `kQueriesPerBlock < kNumWarpsPerBlock * kWarpSize`
(lines 528 and 913) is `128 < (128 * 64 / 1024) * 32 = 256`, so the
configuration builds.  With `causal = true` and 128 keys, key tile 0
satisfies `num_keys - iter_key_start = 128 > 64 = kKeysPerBlock`, so the
causal masking at line 697 is skipped for it and query row 0 attends to
keys 1..63. -/

theorem ce_fused_state (V : ℕ → ℕ → ℝ) (raw maskRow : ℕ → ℝ)
    (hraw : ∀ j, raw j = 0) :
    (fusedRowState false true 1 raw maskRow V 64 0 0 128).mi = ((0 : ℝ) : WithBot ℝ)
    ∧ (fusedRowState false true 1 raw maskRow V 64 0 0 128).s_prime = 64
    ∧ ∀ k, (fusedRowState false true 1 raw maskRow V 64 0 0 128).accum_o k
        = ∑ j ∈ Finset.range 64, V j k := by
  have hval : stagedScore false 1 raw maskRow = fun _ => (0 : ℝ) := by
    funext j
    simp [stagedScore, hraw j]
  have hsc : softmaxScale false 1 = 1 := rfl
  have hk0 : keptCols true 64 0 0 128 0 = Finset.range 64 := by decide
  have hk1 : keptCols true 64 0 0 128 1 = ∅ := by decide
  have hne : (Finset.range 64).Nonempty := ⟨0, by decide⟩
  have hmax0 : tileMaxScaled 1 (fun _ => (0 : ℝ)) (Finset.range 64) 64 0
      = ((0 : ℝ) : WithBot ℝ) := by
    rw [tileMaxScaled_nonempty _ _ _ _ _ hne]
    simp
  have hst0 : iterativeSoftmaxStep true (0 == 0) 1 (fun _ => (0 : ℝ)) V
      (Finset.range 64) 64 0 initState
      = ⟨((0 : ℝ) : WithBot ℝ), 64, fun k => ∑ j ∈ Finset.range 64, V j k⟩ := by
    refine SState.ext ?_ ?_ ?_
    · rw [iterativeSoftmaxStep_mi, hmax0]
      simp [initState]
    · rw [iterativeSoftmaxStep_s, hmax0,
        sum_tileWeight _ _ _ _ _ _ (Finset.Subset.refl _)]
      simp [initState]
    · funext k
      rw [iterativeSoftmaxStep_o, hmax0,
        sum_tileWeight_mul _ _ _ _ _ _ (Finset.Subset.refl _)]
      simp [initState]
  have hst1 : ∀ (s0 : ℝ) (o0 : ℕ → ℝ),
      iterativeSoftmaxStep true (1 == 0) 1 (fun _ => (0 : ℝ)) V ∅ 64 1
          ⟨((0 : ℝ) : WithBot ℝ), s0, o0⟩
        = ⟨((0 : ℝ) : WithBot ℝ), s0, o0⟩ := by
    intro s0 o0
    have hrec : (WithBot.recBotCoe 0 (fun a => Real.exp a) (0 : WithBot ℝ) : ℝ) = 1 :=
      Real.exp_zero
    refine SState.ext ?_ ?_ ?_
    · rw [iterativeSoftmaxStep_mi, tileMaxScaled_empty]
      simp
    · rw [iterativeSoftmaxStep_s, tileMaxScaled_empty]
      simp [tileWeight]
      rw [hrec]
      ring
    · funext k
      rw [iterativeSoftmaxStep_o, tileMaxScaled_empty]
      simp [tileWeight]
      rw [hrec]
      ring
  have h2 : fusedRowState false true 1 raw maskRow V 64 0 0 128
      = iterativeSoftmaxStep true (1 == 0) (softmaxScale false 1)
          (stagedScore false 1 raw maskRow) V (keptCols true 64 0 0 128 1) 64 1
          (iterativeSoftmaxStep true (0 == 0) (softmaxScale false 1)
            (stagedScore false 1 raw maskRow) V (keptCols true 64 0 0 128 0) 64 0
            initState) := by
    unfold fusedRowState stateAfter
    rw [show numTiles 64 128 = 2 from rfl, show List.range 2 = [0, 1] from rfl]
    simp only [List.foldl_cons, List.foldl_nil]
  rw [h2, hval, hsc, hk0, hk1, hst0, hst1]
  exact ⟨rfl, rfl, fun _ => rfl⟩

/-- Flawed compile-time configuration: `kQueriesPerBlock = 128`,
`kKeysPerBlock = 64`, no additive mask.  It satisfies every static
assert of `AttentionKernel`: both sizes are multiples of 32
(kernel_forward.h lines 106-107), and
`kQueriesPerBlock < kNumWarpsPerBlock * kWarpSize` (lines 528 and 913)
holds as `128 < (128 * 64 / (32 * 32)) * 32 = 256`. -/
def ceCfg : Config := ⟨128, 64, false, false⟩

/-- Value rows: row 0 is all zeros, every later row is all ones. -/
noncomputable def ceValue : ℕ → ℕ → ℝ := fun j _ => if j = 0 then 0 else 1

/-- Concrete causal attention problem: zero queries/keys/mask (so every
raw score is `0`), 128 queries, 128 keys, `scale = 1`, values
`ceValue`. -/
noncomputable def ceParams : Params :=
  ⟨fun _ _ => 0, fun _ _ => 0, ceValue, fun _ _ => 0, false, 1, 1, 1, 128, 128,
    true, false⟩

/-- Same problem with all-zero values (agrees with `ceParams` on value
row 0 and on every key row, differs only in value rows `j > 0`). -/
noncomputable def ceParamsV0 : Params := { ceParams with value := fun _ _ => 0 }

theorem ce_kernelRowState (p : Params) (hc : p.causal = true) (hs : p.scale = 1)
    (hnk : p.num_keys = 128) (hraw : ∀ j, rawScore p 0 j = 0) :
    (kernelRowState ceCfg p 0 0).mi = ((0 : ℝ) : WithBot ℝ)
    ∧ (kernelRowState ceCfg p 0 0).s_prime = 64
    ∧ ∀ k, (kernelRowState ceCfg p 0 0).accum_o k
        = ∑ j ∈ Finset.range 64, p.value j k := by
  have hks : kernelRowState ceCfg p 0 0
      = fusedRowState false true 1 (rawScore p 0)
          (maskRowFn false p.mask 0 0) p.value 64 0 0 128 := by
    unfold kernelRowState
    simp [ceCfg, advanceNumKeys, hc, hs, hnk]
  rw [hks]
  exact ce_fused_state p.value (rawScore p 0) (maskRowFn false p.mask 0 0) hraw

theorem ce_sum_value : ∑ j ∈ Finset.range 64, ceValue j 0 = 63 := by
  unfold ceValue
  rw [Finset.sum_congr rfl fun j _ =>
    show (if j = 0 then (0 : ℝ) else 1) = 1 - (if j = 0 then 1 else 0) from by
      split <;> norm_num]
  rw [Finset.sum_sub_distrib, Finset.sum_const, Finset.card_range,
    Finset.sum_ite_eq' (Finset.range 64) 0 (fun _ => (1 : ℝ))]
  norm_num

/-- C1 (amended): for every attention problem, each output row of the
fused kernel equals the reference unfused computation
`sum_j softmax(scale * Q_i . K_j + mask_ij)_j * V_j` over the real
arithmetic embedding — provided that, when `causal` is set,
`kKeysPerBlock` is a multiple of `kQueriesPerBlock` (true of every
shipped tile configuration; `attention_kernel_row_reference_counterexample`
shows the unamended claim fails without this condition). -/
theorem attention_kernel_row_eq_reference (cfg : Config) (p : Params) (blockx r k : ℕ)
    (hkB : 0 < cfg.kKeysPerBlock) (hr : r < cfg.kQueriesPerBlock)
    (hdvd : p.causal = true → cfg.kQueriesPerBlock ∣ cfg.kKeysPerBlock) :
    kernelOutput cfg p blockx r k = referenceRow cfg p blockx r k :=
  kernelOutput_eq_referenceRow cfg p blockx r k hkB hr hdvd

/-- Witness for C1 at a concrete safe configuration
(`kQueriesPerBlock = kKeysPerBlock = 64`, causal; the configuration
satisfies every static assert, with `kNumWarpsPerBlock = 4`). -/
theorem attention_kernel_row_eq_reference_witness :
    0 < (64 : ℕ) ∧ (0 : ℕ) < 64
    ∧ kernelOutput ⟨64, 64, false, false⟩ ceParams 0 0 0
        = referenceRow ⟨64, 64, false, false⟩ ceParams 0 0 0 :=
  ⟨by norm_num, by norm_num,
    attention_kernel_row_eq_reference ⟨64, 64, false, false⟩ ceParams 0 0 0
      (by norm_num) (by norm_num) (fun _ => by norm_num)⟩

/-- C1 counterexample: with the configuration `kQueriesPerBlock = 128`,
`kKeysPerBlock = 64` — which satisfies every static assert of
`AttentionKernel`, in particular `128 < kNumWarpsPerBlock * kWarpSize =
8 * 32` at kernel_forward.h lines 528 and 913 — causal attention over
128 keys and all-zero scores, output row 0 of the fused kernel is
`63 / 64` (keys 1..63 of the first key tile are never causally masked,
because the mask at line 697 runs only when
`num_keys - iter_key_start <= kKeysPerBlock`), while the reference row
is `V_0 = 0`. -/
theorem attention_kernel_row_reference_counterexample :
    kernelOutput ceCfg ceParams 0 0 0 ≠ referenceRow ceCfg ceParams 0 0 0 := by
  have hraw : ∀ j, rawScore ceParams 0 j = 0 := by
    intro j
    simp [rawScore, ceParams]
  obtain ⟨hmi, hs, ho⟩ := ce_kernelRowState ceParams rfl rfl rfl hraw
  have hout : kernelOutput ceCfg ceParams 0 0 0 = 63 / 64 := by
    unfold kernelOutput
    rw [ho 0, hs, show (∑ j ∈ Finset.range 64, ceParams.value j 0) = 63 from ce_sum_value]
  have href : referenceRow ceCfg ceParams 0 0 0 = 0 := by
    have hkref : refKept true 128 0 0 = {0} := by decide
    unfold referenceRow refOut
    rw [show ceParams.causal = true from rfl, show ceParams.num_keys = 128 from rfl,
      show 0 * ceCfg.kQueriesPerBlock = 0 from by norm_num, hkref,
      Finset.sum_singleton, Finset.sum_singleton,
      show ceParams.value 0 0 = 0 from by simp [ceParams, ceValue]]
    simp
  rw [hout, href]
  norm_num

/-- C3 (amended): with `causal = true` and `kKeysPerBlock` a multiple of
`kQueriesPerBlock`, output row `i = blockx * kQueriesPerBlock + r`
depends only on key/value rows `j ≤ i`: replacing every key/value row
beyond `i` leaves the row unchanged
(`causal_independence_counterexample` shows the unamended claim fails
when `kKeysPerBlock` is not a multiple of `kQueriesPerBlock`). -/
theorem causal_output_independent_of_later_keys (cfg : Config) (p : Params)
    (K2 V2 : ℕ → ℕ → ℝ) (blockx r k : ℕ)
    (hkB : 0 < cfg.kKeysPerBlock) (hr : r < cfg.kQueriesPerBlock)
    (hc : p.causal = true)
    (hdvd : cfg.kQueriesPerBlock ∣ cfg.kKeysPerBlock)
    (hK : ∀ j, j ≤ blockx * cfg.kQueriesPerBlock + r → ∀ d, K2 j d = p.key j d)
    (hV : ∀ j, j ≤ blockx * cfg.kQueriesPerBlock + r → ∀ d, V2 j d = p.value j d) :
    kernelOutput cfg { p with key := K2, value := V2 } blockx r k
      = kernelOutput cfg p blockx r k := by
  rw [kernelOutput_eq_referenceRow cfg { p with key := K2, value := V2 } blockx r k
      hkB hr (fun _ => hdvd),
    kernelOutput_eq_referenceRow cfg p blockx r k hkB hr (fun _ => hdvd)]
  unfold referenceRow refOut
  show (∑ j ∈ refKept p.causal p.num_keys (blockx * cfg.kQueriesPerBlock) r,
      Real.exp (refLogit cfg.kAddMask p.scale
        (rawScore { p with key := K2, value := V2 } (blockx * cfg.kQueriesPerBlock + r))
        (maskRowFn cfg.kMaskBroadcastRow p.mask (blockx * cfg.kQueriesPerBlock) r) j)
        * V2 j k)
      / (∑ j ∈ refKept p.causal p.num_keys (blockx * cfg.kQueriesPerBlock) r,
          Real.exp (refLogit cfg.kAddMask p.scale
            (rawScore { p with key := K2, value := V2 }
              (blockx * cfg.kQueriesPerBlock + r))
            (maskRowFn cfg.kMaskBroadcastRow p.mask (blockx * cfg.kQueriesPerBlock) r) j))
    = _
  have hmem : ∀ j ∈ refKept p.causal p.num_keys (blockx * cfg.kQueriesPerBlock) r,
      j ≤ blockx * cfg.kQueriesPerBlock + r := by
    intro j hj
    simp only [refKept, Finset.mem_filter, Finset.mem_range] at hj
    exact hj.2 hc
  have hlogj : ∀ j, j ≤ blockx * cfg.kQueriesPerBlock + r →
      refLogit cfg.kAddMask p.scale
        (rawScore { p with key := K2, value := V2 } (blockx * cfg.kQueriesPerBlock + r))
        (maskRowFn cfg.kMaskBroadcastRow p.mask (blockx * cfg.kQueriesPerBlock) r) j
      = refLogit cfg.kAddMask p.scale
          (rawScore p (blockx * cfg.kQueriesPerBlock + r))
          (maskRowFn cfg.kMaskBroadcastRow p.mask (blockx * cfg.kQueriesPerBlock) r) j := by
    intro j hj
    have hrawj : rawScore { p with key := K2, value := V2 }
        (blockx * cfg.kQueriesPerBlock + r) j
        = rawScore p (blockx * cfg.kQueriesPerBlock + r) j := by
      unfold rawScore
      exact Finset.sum_congr rfl fun d _ => by rw [show ({ p with key := K2, value := V2 } :
        Params).key = K2 from rfl, hK j hj d]
    unfold refLogit
    rw [hrawj]
  congr 1
  · refine Finset.sum_congr rfl fun j hj => ?_
    rw [hlogj j (hmem j hj), hV j (hmem j hj) k]
  · exact Finset.sum_congr rfl fun j hj => by rw [hlogj j (hmem j hj)]

/-- Witness for C3 at a concrete safe configuration
(`kQueriesPerBlock = kKeysPerBlock = 64`): keys/values beyond row 0
replaced by arbitrary other data. -/
theorem causal_output_independent_of_later_keys_witness :
    kernelOutput ⟨64, 64, false, false⟩
        { ceParams with key := fun j _ => if j = 0 then 0 else 5,
                        value := fun j _ => if j = 0 then 0 else 7 } 0 0 0
      = kernelOutput ⟨64, 64, false, false⟩ ceParams 0 0 0 :=
  causal_output_independent_of_later_keys ⟨64, 64, false, false⟩ ceParams
    (fun j _ => if j = 0 then 0 else 5) (fun j _ => if j = 0 then 0 else 7) 0 0 0
    (by norm_num) (by norm_num) rfl (by norm_num)
    (by
      intro j hj d
      have hj0 : j = 0 := by omega
      subst hj0
      simp [ceParams])
    (by
      intro j hj d
      have hj0 : j = 0 := by omega
      subst hj0
      simp [ceParams, ceValue])

/-- C3 counterexample: with `kQueriesPerBlock = 128 > kKeysPerBlock = 64`
(a configuration satisfying every static assert of `AttentionKernel`,
see `ceCfg`) and causal attention, two inputs that agree on the query
buffer, on all key rows and on value row 0 — differing only in value
rows `j > 0` — produce different outputs at row 0 (`0` versus
`63/64`). -/
theorem causal_independence_counterexample :
    ceParamsV0.query = ceParams.query
    ∧ ceParamsV0.key = ceParams.key
    ∧ ceParamsV0.value 0 = ceParams.value 0
    ∧ ceParams.causal = true
    ∧ kernelOutput ceCfg ceParamsV0 0 0 0 ≠ kernelOutput ceCfg ceParams 0 0 0 := by
  refine ⟨rfl, rfl, ?_, rfl, ?_⟩
  · funext k
    simp [ceParamsV0, ceParams, ceValue]
  · have hraw0 : ∀ j, rawScore ceParamsV0 0 j = 0 := by
      intro j
      simp [rawScore, ceParamsV0, ceParams]
    have hraw : ∀ j, rawScore ceParams 0 j = 0 := by
      intro j
      simp [rawScore, ceParams]
    obtain ⟨_, hsA, hoA⟩ := ce_kernelRowState ceParamsV0 rfl rfl rfl hraw0
    obtain ⟨_, hsB, hoB⟩ := ce_kernelRowState ceParams rfl rfl rfl hraw
    have hA : kernelOutput ceCfg ceParamsV0 0 0 0 = 0 := by
      unfold kernelOutput
      rw [hoA 0, hsA,
        show (∑ j ∈ Finset.range 64, ceParamsV0.value j 0) = 0 from by
          simp [ceParamsV0]]
      norm_num
    have hB : kernelOutput ceCfg ceParams 0 0 0 = 63 / 64 := by
      unfold kernelOutput
      rw [hoB 0, hsB,
        show (∑ j ∈ Finset.range 64, ceParams.value j 0) = 63 from ce_sum_value]
    rw [hA, hB]
    norm_num

/-! ### C2: the online-softmax recurrence of `iterative_softmax` -/

theorem tileMaxScaled_eq_sup (scaling : ℝ) (hsc : 0 ≤ scaling) (val : ℕ → ℝ)
    (kept : Finset ℕ) (kB t : ℕ) :
    tileMaxScaled scaling val kept kB t
      = kept.sup fun j => ((scaling * val (t * kB + j) : ℝ) : WithBot ℝ) := by
  rcases Finset.eq_empty_or_nonempty kept with hK | hK
  · rw [hK, tileMaxScaled_empty, Finset.sup_empty]
  · rw [tileMaxScaled_nonempty _ _ _ _ _ hK]
    have hmul : scaling * kept.sup' hK (fun j => val (t * kB + j))
        = kept.sup' hK fun j => scaling * val (t * kB + j) := by
      apply le_antisymm
      · obtain ⟨b, hb, heq⟩ := Finset.exists_mem_eq_sup' hK fun j => val (t * kB + j)
        rw [heq]
        exact Finset.le_sup' (f := fun j => scaling * val (t * kB + j)) hb
      · apply Finset.sup'_le
        intro j hj
        exact mul_le_mul_of_nonneg_left
          (Finset.le_sup' (f := fun j => val (t * kB + j)) hj) hsc
    rw [hmul, Finset.coe_sup']
    rfl

/-- C2 (amended): for every key-tile iteration with nonnegative softmax
scaling (the scaling is `scale` or `1`; `scale` is positive in practice),
on a non-first tile `mi` becomes the maximum of the previous running
maximum and the tile's per-row maximum of scaled scores; the stale
running sum and the register output accumulator are rescaled by
`exp(m_prime - mi)` (with `m_prime` the previous maximum) and the tile's
row-sum of `exp(score - mi)` weights is added; on the first key tile the
output rescale is skipped (factor 1) and the running sum starts from the
tile row-sum alone.  `iterative_softmax_max_counterexample` shows the
maximum clause fails for negative scaling, because the code computes
`scaling * max(raw)` rather than `max(scaling * raw)`
(kernel_forward.h line 988). -/
theorem iterative_softmax_recurrence (scaling M : ℝ) (hsc : 0 ≤ scaling)
    (val : ℕ → ℝ) (V : ℕ → ℕ → ℝ) (kept : Finset ℕ) (kB t : ℕ) (st : SState)
    (hmi : st.mi = (M : WithBot ℝ)) (k : ℕ) (o0 : ℕ → ℝ) :
    (iterativeSoftmaxStep true false scaling val V kept kB t st).mi
        = max st.mi (kept.sup fun j => ((scaling * val (t * kB + j) : ℝ) : WithBot ℝ))
    ∧ (iterativeSoftmaxStep true false scaling val V kept kB t st).s_prime
        = st.s_prime * Real.exp (M -
            miFloat (iterativeSoftmaxStep true false scaling val V kept kB t st).mi)
          + ∑ j ∈ Finset.range kB, tileWeight scaling val kept kB t
              (miFloat (iterativeSoftmaxStep true false scaling val V kept kB t st).mi) j
    ∧ (iterativeSoftmaxStep true false scaling val V kept kB t st).accum_o k
        = st.accum_o k * Real.exp (M -
            miFloat (iterativeSoftmaxStep true false scaling val V kept kB t st).mi)
          + ∑ j ∈ Finset.range kB, tileWeight scaling val kept kB t
              (miFloat (iterativeSoftmaxStep true false scaling val V kept kB t st).mi) j
              * V (t * kB + j) k
    ∧ (iterativeSoftmaxStep true true scaling val V kept kB t ⟨⊥, 0, o0⟩).accum_o k
        = o0 k + ∑ j ∈ Finset.range kB, tileWeight scaling val kept kB t
            (miFloat (iterativeSoftmaxStep true true scaling val V kept kB t
              ⟨⊥, 0, o0⟩).mi) j * V (t * kB + j) k
    ∧ (iterativeSoftmaxStep true true scaling val V kept kB t ⟨⊥, 0, o0⟩).s_prime
        = ∑ j ∈ Finset.range kB, tileWeight scaling val kept kB t
            (miFloat (iterativeSoftmaxStep true true scaling val V kept kB t
              ⟨⊥, 0, o0⟩).mi) j := by
  refine ⟨?_, ?_, ?_, ?_, ?_⟩
  · rw [iterativeSoftmaxStep_mi, tileMaxScaled_eq_sup scaling hsc]
  · rw [iterativeSoftmaxStep_s, iterativeSoftmaxStep_mi, hmi]
    unfold miFloat
    simp
  · rw [iterativeSoftmaxStep_o, iterativeSoftmaxStep_mi, hmi]
    unfold miFloat
    simp
  · rw [iterativeSoftmaxStep_o, iterativeSoftmaxStep_mi]
    unfold miFloat
    simp
  · rw [iterativeSoftmaxStep_s, iterativeSoftmaxStep_mi]
    unfold miFloat
    simp

/-- C2 counterexample: with `scaling = -1`, scores `0` and `1` in the
tile and previous maximum `-5`, the code updates `mi` to
`scaling * max(raw) = -1` (kernel_forward.h line 988), which is not the
claimed maximum of the scaled scores `max(-5, max(-0, -1)) = 0`. -/
theorem iterative_softmax_max_counterexample :
    (iterativeSoftmaxStep true false (-1) (fun a => if a = 33 then (1 : ℝ) else 0)
        (fun _ _ => 0) (keptCols false 32 0 0 34 1) 32 1
        ⟨((-5 : ℝ) : WithBot ℝ), 0, fun _ => 0⟩).mi
      ≠ max ((-5 : ℝ) : WithBot ℝ)
          ((keptCols false 32 0 0 34 1).sup
            fun j => (((-1 : ℝ) * (if 1 * 32 + j = 33 then (1 : ℝ) else 0) : ℝ)
              : WithBot ℝ)) := by
  have hk : keptCols false 32 0 0 34 1 = Finset.range 2 := by decide
  have hne : (Finset.range 2).Nonempty := ⟨0, by decide⟩
  have hsup : (Finset.range 2).sup' hne
      (fun j => (fun a => if a = 33 then (1 : ℝ) else 0) (1 * 32 + j)) = 1 := by
    apply le_antisymm
    · apply Finset.sup'_le
      intro j hj
      simp only
      split <;> norm_num
    · have h1 := Finset.le_sup'
        (fun j => (fun a => if a = 33 then (1 : ℝ) else 0) (1 * 32 + j))
        (show 1 ∈ Finset.range 2 by decide)
      simpa using h1
  have hlhs : (iterativeSoftmaxStep true false (-1)
      (fun a => if a = 33 then (1 : ℝ) else 0)
      (fun _ _ => 0) (keptCols false 32 0 0 34 1) 32 1
      ⟨((-5 : ℝ) : WithBot ℝ), 0, fun _ => 0⟩).mi = ((-1 : ℝ) : WithBot ℝ) := by
    rw [iterativeSoftmaxStep_mi, hk, tileMaxScaled_nonempty _ _ _ _ _ hne, hsup]
    show max ((-5 : ℝ) : WithBot ℝ) ((-1 : ℝ) * 1 : ℝ) = _
    rw [show ((-1 : ℝ) * 1 : ℝ) = (-1 : ℝ) by norm_num, ← WithBot.coe_max,
      show max (-5 : ℝ) (-1) = (-1 : ℝ) from max_eq_right (by norm_num)]
  have hrhs : max ((-5 : ℝ) : WithBot ℝ)
      ((keptCols false 32 0 0 34 1).sup
        fun j => (((-1 : ℝ) * (if 1 * 32 + j = 33 then (1 : ℝ) else 0) : ℝ)
          : WithBot ℝ)) = ((0 : ℝ) : WithBot ℝ) := by
    have hsv : (Finset.range 2).sup
        (fun j => (((-1 : ℝ) * (if 1 * 32 + j = 33 then (1 : ℝ) else 0) : ℝ)
          : WithBot ℝ)) = ((0 : ℝ) : WithBot ℝ) := by
      rw [show Finset.range 2 = insert 1 (insert 0 ∅) by decide, Finset.sup_insert,
        Finset.sup_insert, Finset.sup_empty]
      norm_num
    rw [hk, hsv, ← WithBot.coe_max,
      show max (-5 : ℝ) 0 = (0 : ℝ) from max_eq_right (by norm_num)]
  rw [hlhs, hrhs]
  intro h
  rw [WithBot.coe_inj] at h
  norm_num at h

/-- Witness for C2 at a concrete input with nonnegative scaling. -/
theorem iterative_softmax_recurrence_witness :
    (0 : ℝ) ≤ 1
    ∧ (iterativeSoftmaxStep true false 1 (fun _ => (0 : ℝ)) (fun _ _ => 0)
        (Finset.range 2) 32 1 ⟨((0 : ℝ) : WithBot ℝ), 3, fun _ => 4⟩).mi
      = max ((0 : ℝ) : WithBot ℝ)
          ((Finset.range 2).sup fun _ => (((1 : ℝ) * (0 : ℝ) : ℝ) : WithBot ℝ)) :=
  ⟨by norm_num,
    (iterative_softmax_recurrence 1 0 (by norm_num) (fun _ => 0) (fun _ _ => 0)
      (Finset.range 2) 32 1 ⟨((0 : ℝ) : WithBot ℝ), 3, fun _ => 4⟩ rfl 0
      (fun _ => 5)).1⟩

/-- C4: when `causal` is set, `advance_to_block` clamps `num_keys` to
`min(query_tile_start + kQueriesPerBlock, num_keys)` (kernel_forward.h
lines 240-243); the per-element negative-infinity overwrite is applied
only on the last reachable key tile — on any earlier tile
(`num_keys - iter_key_start > kKeysPerBlock`) the kept columns are the
same as in the non-causal case — and on the last tile it excludes
exactly the in-range elements whose absolute key position
`iter_key_start + j` exceeds the absolute query position `qs + r`
(lines 697-714). -/
theorem causal_clamp_and_last_tile_masking (kQ kB qs r n numKeys t : ℕ) :
    advanceNumKeys kQ true qs numKeys = min (qs + kQ) numKeys
    ∧ (t * kB + kB < n →
        keptCols true kB qs r n t = keptCols false kB qs r n t)
    ∧ (n ≤ t * kB + kB → ∀ j, j < problemSizeN kB n t →
        (j ∉ keptCols true kB qs r n t ↔ qs + r < t * kB + j)) := by
  refine ⟨rfl, ?_, ?_⟩
  · intro hnotlast
    unfold keptCols
    apply Finset.filter_congr
    intro j hj
    constructor
    · intro _
      rintro ⟨hf, _, _⟩
      exact absurd hf (by simp)
    · intro _
      rintro ⟨_, hle, _⟩
      omega
  · intro hlast j hjlt
    have hmem : j ∈ keptCols true kB qs r n t ↔ ¬(qs + r < t * kB + j) := by
      simp only [keptCols, Finset.mem_filter, Finset.mem_range]
      constructor
      · rintro ⟨_, hm⟩ hgt
        exact hm ⟨by trivial, by omega, hgt⟩
      · intro hng
        exact ⟨hjlt, fun h => hng h.2.2⟩
    rw [hmem, not_not]

/-- Witness for C4 at concrete tile coordinates. -/
theorem causal_clamp_and_last_tile_masking_witness :
    advanceNumKeys 64 true 0 100 = min 64 100
    ∧ keptCols true 32 0 0 96 0 = keptCols false 32 0 0 96 0
    ∧ (5 ∉ keptCols true 32 32 1 64 1 ↔ 32 + 1 < 1 * 32 + 5) :=
  ⟨(causal_clamp_and_last_tile_masking 64 32 0 0 100 100 0).1,
    (causal_clamp_and_last_tile_masking 64 32 0 0 96 100 0).2.1 (by norm_num),
    (causal_clamp_and_last_tile_masking 64 32 32 1 64 100 1).2.2 (by norm_num) 5
      (by norm_num [problemSizeN])⟩

/-- C5: on a partial last key tile (`num_keys - iter_key_start <
kKeysPerBlock`), score columns at local index `>= num_keys -
iter_key_start` have exponentiated weight `0`, and the whole softmax
step is independent of the score values at those columns (they are
excluded from the row maximum and the row sum, not zero-padded into the
softmax); kernel_forward.h lines 973-990 and 1012-1022. -/
theorem partial_tile_columns_excluded (scaling : ℝ) (val val2 : ℕ → ℝ)
    (V : ℕ → ℕ → ℝ) (causal kRF first : Bool) (kB qs r n t : ℕ) (miR : ℝ)
    (st : SState)
    (hshort : n - t * kB < kB)
    (hagree : ∀ j, j < n - t * kB → val2 (t * kB + j) = val (t * kB + j)) :
    (∀ j, n - t * kB ≤ j →
        tileWeight scaling val (keptCols causal kB qs r n t) kB t miR j = 0)
    ∧ iterativeSoftmaxStep kRF first scaling val2 V (keptCols causal kB qs r n t) kB t st
        = iterativeSoftmaxStep kRF first scaling val V (keptCols causal kB qs r n t)
            kB t st := by
  have hsubn : ∀ j ∈ keptCols causal kB qs r n t, j < n - t * kB := by
    intro j hj
    simp only [keptCols, problemSizeN, Finset.mem_filter, Finset.mem_range,
      lt_min_iff] at hj
    exact hj.1.2
  constructor
  · intro j hge
    unfold tileWeight
    rw [if_neg]
    intro hmem
    exact absurd (hsubn j hmem) (by omega)
  · have hmax : tileMaxScaled scaling val2 (keptCols causal kB qs r n t) kB t
        = tileMaxScaled scaling val (keptCols causal kB qs r n t) kB t := by
      rcases Finset.eq_empty_or_nonempty (keptCols causal kB qs r n t) with hK | hK
      · rw [hK, tileMaxScaled_empty, tileMaxScaled_empty]
      · rw [tileMaxScaled_nonempty _ _ _ _ _ hK, tileMaxScaled_nonempty _ _ _ _ _ hK]
        have : (keptCols causal kB qs r n t).sup' hK (fun j => val2 (t * kB + j))
            = (keptCols causal kB qs r n t).sup' hK (fun j => val (t * kB + j)) := by
          apply Finset.sup'_congr hK rfl
          intro j hj
          exact hagree j (hsubn j hj)
        rw [this]
    have hw : ∀ mR : ℝ, tileWeight scaling val2 (keptCols causal kB qs r n t) kB t mR
        = tileWeight scaling val (keptCols causal kB qs r n t) kB t mR := by
      intro mR
      funext j
      unfold tileWeight
      by_cases hj : j ∈ keptCols causal kB qs r n t
      · rw [if_pos hj, if_pos hj, hagree j (hsubn j hj)]
      · rw [if_neg hj, if_neg hj]
    refine SState.ext ?_ ?_ ?_
    · rw [iterativeSoftmaxStep_mi, iterativeSoftmaxStep_mi, hmax]
    · rw [iterativeSoftmaxStep_s, iterativeSoftmaxStep_s, hmax, hw]
    · funext k
      rw [iterativeSoftmaxStep_o, iterativeSoftmaxStep_o, hmax, hw]

/-- Witness for C5: a partial last tile (2 of 32 columns in range) with
the out-of-range scores perturbed arbitrarily. -/
theorem partial_tile_columns_excluded_witness :
    tileWeight 1 (fun _ => (0 : ℝ)) (keptCols true 32 0 0 34 1) 32 1 0 5 = 0
    ∧ iterativeSoftmaxStep true false 1 (fun a => if a < 34 then (0 : ℝ) else 9)
        (fun _ _ => 0) (keptCols true 32 0 0 34 1) 32 1 initState
      = iterativeSoftmaxStep true false 1 (fun _ => (0 : ℝ)) (fun _ _ => 0)
          (keptCols true 32 0 0 34 1) 32 1 initState :=
  ⟨(partial_tile_columns_excluded 1 (fun _ => (0 : ℝ)) (fun _ => (0 : ℝ))
      (fun _ _ => 0) true true false 32 0 0 34 1 0 initState (by norm_num)
      (fun _ _ => rfl)).1 5 (by norm_num),
    (partial_tile_columns_excluded 1 (fun _ => (0 : ℝ))
      (fun a => if a < 34 then (0 : ℝ) else 9) (fun _ _ => 0) true true false
      32 0 0 34 1 0 initState (by norm_num)
      (by
        intro j hj
        have : 1 * 32 + j < 34 := by omega
        simp [this])).2⟩

/-- C6: when an additive mask is configured the raw score tile is first
multiplied by `scale` and the mask is added afterwards (so the logit is
`scale * (Q_i . K_j) + mask_ij`, with the mask in final-logit units),
and the softmax stage then applies no further scaling (factor 1), while
without a mask the softmax stage applies `scale` itself: the masked
pipeline coincides with the unmasked pipeline run on the pre-combined
logits `scale * raw + mask` with unit scale.  Kernel_forward.h lines
652-655, 677-694 and 736-740. -/
theorem mask_added_after_scaling_equiv (causal : Bool) (scale : ℝ)
    (raw maskRow maskRow2 : ℕ → ℝ) (V : ℕ → ℕ → ℝ) (kB qs r n k : ℕ) :
    softmaxScale true scale = 1
    ∧ softmaxScale false scale = scale
    ∧ stagedScore true scale raw maskRow = (fun j => scale * raw j + maskRow j)
    ∧ fusedRowOut true causal scale raw maskRow V kB qs r n k
        = fusedRowOut false causal 1 (fun j => scale * raw j + maskRow j) maskRow2
            V kB qs r n k := by
  refine ⟨rfl, rfl, rfl, ?_⟩
  have hval : stagedScore true scale raw maskRow
      = stagedScore false 1 (fun j => scale * raw j + maskRow j) maskRow2 := by
    funext j
    simp [stagedScore]
  have hsc : softmaxScale true scale = softmaxScale false 1 := rfl
  unfold fusedRowOut fusedRowState stateAfter
  rw [hval, hsc]

/-- C7: running with row-broadcast masking enabled and a single
(row-duplicated) mask produces output and log-sum-exp identical to
running with row-broadcast masking disabled on the same mask: under
broadcast, mask row 0 of the tile is applied to every query row
(kernel_forward.h lines 657 and 684-693). -/
theorem mask_broadcast_row_equiv (kQ kB : ℕ) (kAddMask : Bool) (p : Params)
    (mrow : ℕ → ℝ) (blockx r k q : ℕ) :
    kernelOutput ⟨kQ, kB, kAddMask, true⟩ { p with mask := fun _ c => mrow c }
        blockx r k
      = kernelOutput ⟨kQ, kB, kAddMask, false⟩ { p with mask := fun _ c => mrow c }
          blockx r k
    ∧ globalLSE ⟨kQ, kB, kAddMask, true⟩ { p with mask := fun _ c => mrow c } q
      = globalLSE ⟨kQ, kB, kAddMask, false⟩ { p with mask := fun _ c => mrow c } q := by
  have hstate : ∀ b r2, kernelRowState ⟨kQ, kB, kAddMask, true⟩
      { p with mask := fun _ c => mrow c } b r2
      = kernelRowState ⟨kQ, kB, kAddMask, false⟩
          { p with mask := fun _ c => mrow c } b r2 := by
    intro b r2
    unfold kernelRowState
    have hm : maskRowFn true (fun _ c => mrow c) (b * kQ) r2
        = maskRowFn false (fun _ c => mrow c) (b * kQ) r2 := by
      funext c
      simp [maskRowFn]
    show fusedRowState kAddMask p.causal p.scale (rawScore _ (b * kQ + r2))
        (maskRowFn true (fun _ c => mrow c) (b * kQ) r2) p.value kB (b * kQ) r2 _
      = fusedRowState kAddMask p.causal p.scale (rawScore _ (b * kQ + r2))
          (maskRowFn false (fun _ c => mrow c) (b * kQ) r2) p.value kB (b * kQ) r2 _
    rw [hm]
  constructor
  · unfold kernelOutput
    rw [hstate blockx r]
  · unfold globalLSE kernelLSE gridX
    rw [hstate]

/-- C10: the kernel output (and log-sum-exp output) is independent of
the runtime `Params` field `mask_broadcast_row`: the field (declared at
kernel_forward.h line 142) is never read by the device code, which
consults only the compile-time template parameter `kMaskBroadcastRow`
(lines 657 and 686). -/
theorem output_independent_of_runtime_broadcast_field (cfg : Config) (p : Params)
    (b : Bool) (blockx r k q : ℕ) :
    kernelOutput cfg { p with mask_broadcast_row := b } blockx r k
      = kernelOutput cfg p blockx r k
    ∧ globalLSE cfg { p with mask_broadcast_row := b } q = globalLSE cfg p q :=
  ⟨rfl, rfl⟩

/-! ### C8: the log-sum-exp buffer -/

theorem alignUp_le_of_dvd {N m : ℕ} (hd : kAlignLSE ∣ m) (hNm : N ≤ m) :
    alignUp N kAlignLSE ≤ m := by
  obtain ⟨u, rfl⟩ := hd
  unfold alignUp kAlignLSE
  unfold kAlignLSE at hNm
  omega

theorem alignUp_split {c N : ℕ} (hc : kAlignLSE ∣ c) (hcN : c ≤ N) :
    alignUp N kAlignLSE = c + alignUp (N - c) kAlignLSE := by
  obtain ⟨u, rfl⟩ := hc
  unfold alignUp kAlignLSE
  unfold kAlignLSE at hcN
  omega

/-- C8: when a log-sum-exp buffer is requested, each valid global query
row `q < num_queries` receives `mi[r] + log(s_prime[r])` from the block
owning it, and every row past the query count but below the 32-aligned
dimension `ceil_div(num_queries, kAlignLSE) * kAlignLSE` (with
`kAlignLSE = 32`) is written as positive infinity
(kernel_forward.h lines 910-924 and 98). -/
theorem logsumexp_write_values (cfg : Config) (p : Params) (q : ℕ)
    (h32 : kAlignLSE ∣ cfg.kQueriesPerBlock) (hkQ : 0 < cfg.kQueriesPerBlock)
    (hreq : p.logsumexp = true) :
    (q < p.num_queries →
        globalLSE cfg p q
          = some ((miFloat (kernelRowState cfg p (q / cfg.kQueriesPerBlock)
                (q % cfg.kQueriesPerBlock)).mi
              + Real.log (kernelRowState cfg p (q / cfg.kQueriesPerBlock)
                  (q % cfg.kQueriesPerBlock)).s_prime : ℝ) : WithTop ℝ))
    ∧ (p.num_queries ≤ q → q < alignUp p.num_queries kAlignLSE →
        globalLSE cfg p q = some ⊤) := by
  set kQ := cfg.kQueriesPerBlock with hkQdef
  have hdm : q / kQ * kQ + q % kQ = q := by
    rw [mul_comm]
    exact Nat.div_add_mod q kQ
  have hmod : q % kQ < kQ := Nat.mod_lt _ hkQ
  have hgr : gridX cfg p = numTiles kQ p.num_queries := rfl
  have hgrid : p.num_queries ≤ numTiles kQ p.num_queries * kQ :=
    le_numTiles_mul kQ p.num_queries hkQ
  constructor
  · intro hq
    have hb : q / kQ < gridX cfg p := by
      rw [hgr]
      by_contra hnb
      push_neg at hnb
      have h2 : numTiles kQ p.num_queries * kQ ≤ q / kQ * kQ :=
        Nat.mul_le_mul_right kQ hnb
      omega
    unfold globalLSE
    rw [if_pos hb]
    unfold kernelLSE
    rw [hreq, if_neg (by simp), if_pos hmod,
      if_pos (show q % kQ < p.num_queries - q / kQ * kQ by omega)]
  · intro hqN hqA
    have hcN : q / kQ * kQ ≤ p.num_queries := by
      by_contra hgt
      push_neg at hgt
      have hdvd : kAlignLSE ∣ q / kQ * kQ := Dvd.dvd.mul_left h32 (q / kQ)
      have hle := alignUp_le_of_dvd hdvd (le_of_lt hgt)
      omega
    have hb : q / kQ < gridX cfg p := by
      rw [hgr]
      have hdvd : kAlignLSE ∣ numTiles kQ p.num_queries * kQ :=
        Dvd.dvd.mul_left h32 (numTiles kQ p.num_queries)
      have hle := alignUp_le_of_dvd hdvd hgrid
      have hlt : q / kQ * kQ < numTiles kQ p.num_queries * kQ := by omega
      exact Nat.lt_of_mul_lt_mul_right hlt
    have hsplit := alignUp_split (Dvd.dvd.mul_left h32 (q / kQ)) hcN
    unfold globalLSE
    rw [if_pos hb]
    unfold kernelLSE
    rw [hreq, if_neg (by simp), if_pos hmod,
      if_neg (show ¬(q % kQ < p.num_queries - q / kQ * kQ) by omega),
      if_pos (show q % kQ < alignUp (p.num_queries - q / kQ * kQ) kAlignLSE by omega)]

/-- Witness for C8: one valid row and one padded row of a concrete
5-query problem with 32-query blocks. -/
theorem logsumexp_write_values_witness :
    (2 : ℕ) < 5
    ∧ globalLSE ⟨32, 32, false, false⟩
        { ceParams with num_queries := 5, logsumexp := true } 2
      = some ((miFloat (kernelRowState ⟨32, 32, false, false⟩
            { ceParams with num_queries := 5, logsumexp := true } (2 / 32) (2 % 32)).mi
          + Real.log (kernelRowState ⟨32, 32, false, false⟩
              { ceParams with num_queries := 5, logsumexp := true }
              (2 / 32) (2 % 32)).s_prime : ℝ) : WithTop ℝ)
    ∧ globalLSE ⟨32, 32, false, false⟩
        { ceParams with num_queries := 5, logsumexp := true } 7 = some ⊤ :=
  ⟨by norm_num,
    (logsumexp_write_values ⟨32, 32, false, false⟩
      { ceParams with num_queries := 5, logsumexp := true } 2
      (by norm_num [kAlignLSE]) (by norm_num) rfl).1 (by norm_num),
    (logsumexp_write_values ⟨32, 32, false, false⟩
      { ceParams with num_queries := 5, logsumexp := true } 7
      (by norm_num [kAlignLSE]) (by norm_num) rfl).2 (by norm_num)
      (by norm_num [alignUp, kAlignLSE])⟩

/-! ### C9: `check_supported` -/

theorem natMod_iff (a n : ℕ) : n % a = 0 ↔ a ∣ n :=
  Nat.dvd_iff_mod_eq_zero.symm

theorem intMod_iff (a z : ℤ) : z % a = 0 ↔ a ∣ z :=
  ⟨Int.dvd_of_emod_eq_zero, Int.emod_eq_zero_of_dvd⟩

/-- C9: the host-side validation `check_supported` accepts a parameter
set iff every buffer pointer (query, key, value, and mask when present)
is aligned to its type-dependent alignment and every per-row (`strideM`)
and per-head (`strideH`) stride — plus, for the mask, the per-batch
stride (`strideB`) — is a multiple of that alignment
(kernel_forward.h lines 486-513).  It is a pure function of the
parameter struct, evaluated on the host before any kernel work. -/
theorem check_supported_iff_aligned (alignQ alignK : ℕ) (maskIsAligned : Bool)
    (p : CheckParams) :
    check_supported alignQ alignK maskIsAligned p = true ↔
      (alignQ ∣ p.query_ptr ∧ alignK ∣ p.key_ptr ∧ kAlignmentV ∣ p.value_ptr
        ∧ (p.mask_ptr ≠ 0 →
            kAlignmentM alignQ maskIsAligned ∣ p.mask_ptr
            ∧ ((kAlignmentM alignQ maskIsAligned : ℤ) ∣ p.mask_strideB)
            ∧ ((kAlignmentM alignQ maskIsAligned : ℤ) ∣ p.mask_strideH)
            ∧ ((kAlignmentM alignQ maskIsAligned : ℤ) ∣ p.mask_strideM))
        ∧ ((alignQ : ℤ) ∣ p.q_strideM) ∧ ((alignK : ℤ) ∣ p.k_strideM)
        ∧ ((kAlignmentV : ℤ) ∣ p.v_strideM)
        ∧ ((alignQ : ℤ) ∣ p.q_strideH) ∧ ((alignK : ℤ) ∣ p.k_strideH)
        ∧ ((kAlignmentV : ℤ) ∣ p.v_strideH)) := by
  unfold check_supported checkAlignedPtr
  by_cases hm : p.mask_ptr = 0
  · rw [if_neg (by simp [hm])]
    simp [hm, natMod_iff, intMod_iff, kAlignmentV]
    tauto
  · rw [if_pos hm]
    simp [hm, natMod_iff, intMod_iff, kAlignmentV]
    tauto

end FMHA
